import Mathlib

/-!
# A shallow embedding of the cryptstr header library

This file embeds the core of the single-header C++ library
`src/cryptstr.hpp` (namespace `cs`) and proves the behavioural
properties of its compile-time string container, transform engine,
obfuscated string value, secure view and erasure primitive.

Modelling conventions:
* `CharType` is instantiated at `char`; character values are modelled as
  natural numbers, with byte semantics (`< 256`, truncation `% 256`)
  made explicit where the C++ code relies on the 8-bit width of `char`.
* C++ arrays and memory regions are modelled as `List Nat`; a pointer
  into a region is an offset (a `Nat` index) into such a list.
* The fallible accessor `ctstr::operator[]`, which throws
  `std::out_of_range`, is modelled with `Except String`.
* Destructors are modelled as functions returning the final contents of
  the backing memory they act on.
-/

namespace cs

/-- Model of `cs::memzero` (cryptstr.hpp lines 114-120): starting at
offset `p` of the memory region `mem`, write a zero byte and advance
the pointer, `num` times (`while (num-- > 0) { *char_ptr = 0; ++char_ptr; }`).
Writes past the end of the region are modelled as no-ops (`List.set`
out of range). -/
def memzero : List Nat → Nat → Nat → List Nat
  | mem, _, 0 => mem
  | mem, p, n + 1 => memzero (mem.set p 0) (p + 1) n

/-- Model of `cs::ctstr<CharType, N>` (cryptstr.hpp lines 216-296): a
compile-time string holding the element array `str` of `N` characters
and the recorded length `len`.  Every C++ constructor establishes
`str.length = N` (the array member is `char_type str[N]`) and
`len = N` (the constructors set `len` to the source size `Y`, with
`static_assert(N == Y)`), so the model carries both facts. -/
structure ctstr (N : Nat) where
  str : List Nat
  len : Nat
  hstr : str.length = N
  hlen : len = N

/-- The `ctstr` constructor from a character array (cryptstr.hpp lines
225-231) and the helper `cs::make_ctstr` (lines 298-301): the source
array of `Y` elements is copied element-wise into `str`, and `len` is
set to `Y`; `static_assert(N == Y)` makes the constructor usable only
at `Y = N`, so the model takes an array of length `N` directly. -/
def ctstr.ofArray {N : Nat} (a : List Nat) (ha : a.length = N) : ctstr N :=
  ⟨a, N, ha, rfl⟩

/-- `ctstr::size()` (cryptstr.hpp lines 251-253): returns `len`. -/
def ctstr.size {N : Nat} (s : ctstr N) : Nat := s.len

/-- `ctstr::operator[]` (cryptstr.hpp lines 246-248): returns
`str[_index]` when `_index < len`, otherwise throws
`std::out_of_range("index out of range")`. -/
def ctstr.index {N : Nat} (s : ctstr N) (i : Nat) : Except String Nat :=
  if h : i < s.len then
    Except.ok (s.str.get ⟨i, by
      have h1 := s.hstr
      have h2 := s.hlen
      omega⟩)
  else
    Except.error ("index out of range")

/-- The private comparison loop `ctstr::equal` (cryptstr.hpp lines
284-291): element-wise comparison of positions `0 .. n-1` of the two
arrays, false as soon as one position differs. -/
def equalLoop (a b : List Nat) : Nat → Bool
  | 0 => true
  | n + 1 => equalLoop a b n && (a.getD n 0 == b.getD n 0)

/-- `ctstr::operator==` against another `ctstr` (cryptstr.hpp lines
262-267): `false` when the sizes differ, otherwise the element-wise
comparison of the first `N` positions. -/
def ctstr.beq {N Y : Nat} (s : ctstr N) (t : ctstr Y) : Bool :=
  if Y ≠ N then false else equalLoop s.str t.str N

/-- `ctstr::operator==` against a raw character array of `Y` elements
(cryptstr.hpp lines 256-261). -/
def ctstr.beqArr {N : Nat} (s : ctstr N) (Y : Nat) (a : List Nat) : Bool :=
  if Y ≠ N then false else equalLoop s.str a N

/-- `ctstr::operator!=` against another `ctstr` (cryptstr.hpp lines
274-279): `true` when the sizes differ, otherwise the negated
element-wise comparison. -/
def ctstr.bne {N Y : Nat} (s : ctstr N) (t : ctstr Y) : Bool :=
  if Y ≠ N then true else !(equalLoop s.str t.str N)

/-- `ctstr::operator!=` against a raw character array (cryptstr.hpp
lines 268-273). -/
def ctstr.bneArr {N : Nat} (s : ctstr N) (Y : Nat) (a : List Nat) : Bool :=
  if Y ≠ N then true else !(equalLoop s.str a N)

/-- `cs::transform`, the overload taking a `ctstr` (cryptstr.hpp lines
309-316): builds `values[i] = functor(other.get(), N, i)` for each
`i < N` and returns a new `ctstr` constructed from `values`.  The
functor receives the source element array (the pointer `other.get()`),
the length `N` and the index. -/
def transform {N : Nat} (s : ctstr N) (f : List Nat → Nat → Nat → Nat) : ctstr N :=
  ctstr.ofArray ((List.range N).map (fun i => f s.str N i)) (by simp)

/-- `cs::transform`, the overload taking a raw character array
(cryptstr.hpp lines 317-324). -/
def transformArr {N : Nat} (a : List Nat) (f : List Nat → Nat → Nat → Nat) : ctstr N :=
  ctstr.ofArray ((List.range N).map (fun i => f a N i)) (by simp)

/-- `cs::xor_functor<Key>` (cryptstr.hpp lines 346-353): returns
`str[index] ^ Key`.  The `int` result is converted back to the 8-bit
character type, which truncates modulo 256. -/
def xor_functor (Key : Nat) : List Nat → Nat → Nat → Nat :=
  fun str _len index => (str.getD index 0 ^^^ Key) % 256

/-- A deterministic, total per-character transform object that is
invertible but not self-inverse: adds one modulo 256. -/
def add_one_functor : List Nat → Nat → Nat → Nat :=
  fun str _len index => (str.getD index 0 + 1) % 256

/-- Model of `cs::strview<CharType>` (cryptstr.hpp lines 358-393): a
move-only view owning a string buffer of plaintext characters.  The
model keeps the contents of the backing buffer. -/
structure strview where
  buf : List Nat

/-- The only `strview` constructor (cryptstr.hpp lines 383-384):
`std::basic_string(_str.get(), _str.size())`, a copy of the first
`size() = len` characters of the `ctstr` element array. -/
def strview.ofCtstr {N : Nat} (s : ctstr N) : strview :=
  ⟨s.str.take s.len⟩

/-- `strview::size()`: inherited from `std::basic_string`, the number
of characters in the owned buffer. -/
def strview.size (v : strview) : Nat := v.buf.length

/-- `strview::~strview` (cryptstr.hpp lines 390-392):
`memzero((void*)this->c_str(), this->size() * sizeof(CharType))` with
`sizeof(char) = 1`.  The result is the final contents of the backing
buffer, read after destruction. -/
def strview.destructor (v : strview) : List Nat :=
  memzero v.buf 0 (v.size * 1)

/-- Model of `cs::cryptstr<CharType, N, Functor>` (cryptstr.hpp lines
397-429): owns the transform object `functor` and the
already-transformed string `data` (the constructor takes the crypted
`ctstr` and stores it unchanged, `static_assert(Y == N)`). -/
structure cryptstr (N : Nat) where
  functor : List Nat → Nat → Nat → Nat
  data : ctstr N

/-- `cs::crypt`, the overload taking a `ctstr` (cryptstr.hpp lines
431-434): stores `transform(_other, _functor)` together with the
functor. -/
def crypt {N : Nat} (f : List Nat → Nat → Nat → Nat) (s : ctstr N) : cryptstr N :=
  ⟨f, transform s f⟩

/-- `cs::crypt`, the overload taking a raw character array
(cryptstr.hpp lines 435-438). -/
def cryptArr {N : Nat} (f : List Nat → Nat → Nat → Nat) (a : List Nat) : cryptstr N :=
  ⟨f, transformArr a f⟩

/-- `cryptstr::decrypt` (cryptstr.hpp lines 419-424): re-applies the
stored functor to the stored obfuscated string via `transform`, copies
the resulting plaintext into a fresh `strview`, wipes the transient
local `raw` (which does not affect the view, an independent copy) and
returns the view. -/
def cryptstr.decrypt {N : Nat} (c : cryptstr N) : strview :=
  strview.ofCtstr (transform c.data c.functor)

/-- The plaintext of the demonstration literal `"FIRST CRYPTED STRING"`
(main.cpp line 13) as a character array: 20 characters plus the
terminating null, 21 elements. -/
def demo_plain : ctstr 21 :=
  ctstr.ofArray
    [70, 73, 82, 83, 84, 32, 67, 82, 89, 80, 84, 69, 68, 32,
     83, 84, 82, 73, 78, 71, 0] rfl

end cs

namespace cs

/-! ## Helper lemmas -/

theorem getD_range_map (g : Nat → Nat) {N i : Nat} (hi : i < N) :
    ((List.range N).map g).getD i 0 = g i := by
  rw [List.getD_eq_getElem?_getD, List.getElem?_map, List.getElem?_range hi]
  rfl

theorem getD_eq_get (l : List Nat) (i : Nat) (h : i < l.length) :
    l.getD i 0 = l.get ⟨i, h⟩ := by
  rw [List.getD_eq_getElem?_getD, List.getElem?_eq_getElem h]
  rfl

theorem transform_getD {N : Nat} (s : ctstr N) (f : List Nat → Nat → Nat → Nat)
    {i : Nat} (hi : i < N) :
    (transform s f).str.getD i 0 = f s.str N i :=
  getD_range_map (fun j => f s.str N j) hi

theorem equalLoop_iff (a b : List Nat) (n : Nat) :
    equalLoop a b n = true ↔ ∀ i, i < n → a.getD i 0 = b.getD i 0 := by
  induction n with
  | zero => simp [equalLoop]
  | succ n ih =>
    rw [equalLoop]
    rw [Bool.and_eq_true, beq_iff_eq, ih]
    constructor
    · rintro ⟨h1, h2⟩ i hi
      rcases Nat.lt_succ_iff_lt_or_eq.mp hi with h | h
      · exact h1 i h
      · exact h ▸ h2
    · intro h
      exact ⟨fun i hi => h i (Nat.lt_succ_of_lt hi), h n (Nat.lt_succ_self n)⟩

theorem strview_ofCtstr_buf {N : Nat} (s : ctstr N) :
    (strview.ofCtstr s).buf = s.str := by
  show s.str.take s.len = s.str
  exact List.take_of_length_le (by
    have h1 := s.hstr
    have h2 := s.hlen
    omega)

theorem getD_set_ne (mem : List Nat) (p i v : Nat) (h : p ≠ i) :
    (mem.set p v).getD i 0 = mem.getD i 0 := by
  rw [List.getD_eq_getElem?_getD, List.getD_eq_getElem?_getD, List.getElem?_set, if_neg h]

theorem getD_set_self_zero (mem : List Nat) (p : Nat) :
    (mem.set p 0).getD p 0 = 0 := by
  rw [List.getD_eq_getElem?_getD, List.getElem?_set, if_pos rfl]
  by_cases h : p < mem.length
  · rw [if_pos h]
    rfl
  · rw [if_neg h]
    rfl

theorem memzero_length (n : Nat) : ∀ (mem : List Nat) (p : Nat),
    (memzero mem p n).length = mem.length := by
  induction n with
  | zero => intro mem p; rfl
  | succ n ih =>
    intro mem p
    show (memzero (mem.set p 0) (p + 1) n).length = mem.length
    rw [ih]
    exact List.length_set mem p 0

theorem memzero_getD_lt (n : Nat) : ∀ (mem : List Nat) (p i : Nat),
    i < p → (memzero mem p n).getD i 0 = mem.getD i 0 := by
  induction n with
  | zero => intro mem p i _; rfl
  | succ n ih =>
    intro mem p i h
    show (memzero (mem.set p 0) (p + 1) n).getD i 0 = mem.getD i 0
    rw [ih _ _ _ (by omega)]
    exact getD_set_ne mem p i 0 (by omega)

theorem memzero_getD_ge (n : Nat) : ∀ (mem : List Nat) (p i : Nat),
    p + n ≤ i → (memzero mem p n).getD i 0 = mem.getD i 0 := by
  induction n with
  | zero => intro mem p i _; rfl
  | succ n ih =>
    intro mem p i h
    show (memzero (mem.set p 0) (p + 1) n).getD i 0 = mem.getD i 0
    rw [ih _ _ _ (by omega)]
    exact getD_set_ne mem p i 0 (by omega)

theorem memzero_getD_zero (n : Nat) : ∀ (mem : List Nat) (p i : Nat),
    p ≤ i → i < p + n → (memzero mem p n).getD i 0 = 0 := by
  induction n with
  | zero => intro mem p i h1 h2; omega
  | succ n ih =>
    intro mem p i h1 h2
    show (memzero (mem.set p 0) (p + 1) n).getD i 0 = 0
    by_cases hip : p = i
    · rw [memzero_getD_lt n _ _ _ (by omega)]
      rw [← hip]
      exact getD_set_self_zero mem p
    · exact ih _ _ _ (by omega) (by omega)

theorem xor_mod_two_pow_eight (c k : Nat) (hc : c < 256) :
    (c ^^^ k) % 256 = c ^^^ (k % 256) := by
  have h256 : (256 : Nat) = 2 ^ 8 := by norm_num
  apply Nat.eq_of_testBit_eq
  intro i
  simp only [h256] at hc ⊢
  rw [Nat.testBit_mod_two_pow, Nat.testBit_xor, Nat.testBit_xor, Nat.testBit_mod_two_pow]
  by_cases hi : i < 8
  · simp [hi]
  · have hcb : c.testBit i = false :=
      Nat.testBit_lt_two_pow (lt_of_lt_of_le hc (Nat.pow_le_pow_right (by norm_num) (by omega)))
    simp [hi, hcb]

theorem byte_xor_bound (c k : Nat) (hc : c < 256) (hk : k < 256) : c ^^^ k < 256 := by
  have h256 : (256 : Nat) = 2 ^ 8 := by norm_num
  rw [h256] at hc hk ⊢
  exact Nat.xor_lt_two_pow hc hk

theorem xor_byte_roundtrip (c k : Nat) (hc : c < 256) :
    (((c ^^^ k) % 256) ^^^ k) % 256 = c := by
  rw [xor_mod_two_pow_eight c k hc]
  have hb : c ^^^ (k % 256) < 256 :=
    byte_xor_bound c (k % 256) hc (Nat.mod_lt k (by norm_num))
  rw [xor_mod_two_pow_eight _ k hb, Nat.xor_assoc, Nat.xor_self, Nat.xor_zero]

theorem xor_byte_ne (c k : Nat) (hc : c < 256) (hk : k % 256 ≠ 0) :
    (c ^^^ k) % 256 ≠ c := by
  rw [xor_mod_two_pow_eight c k hc]
  intro h
  apply hk
  have h2 : c ^^^ (c ^^^ (k % 256)) = c ^^^ c := congrArg (fun x => c ^^^ x) h
  rwa [← Nat.xor_assoc, Nat.xor_self, Nat.zero_xor] at h2

end cs

namespace cs

/-! ## Claim theorems -/

/-- C3: for every fixed string source of length `N` and every functor
`F`, `transform(source, F)` returns a fixed string of the same length
`N` whose element at each index `i < N` equals `F(source_pointer, N, i)`.
The source is passed by value and untouched (the embedding is pure, as
is the constexpr C++ loop). -/
theorem transform_spec {N : Nat} (s : ctstr N) (f : List Nat → Nat → Nat → Nat)
    (i : Nat) (hi : i < N) :
    (transform s f).size = N ∧ (transform s f).str.getD i 0 = f s.str N i :=
  ⟨rfl, transform_getD s f hi⟩

theorem transform_spec_witness :
    (transform (ctstr.ofArray [1, 2, 3] rfl) add_one_functor).size = 3 ∧
    (transform (ctstr.ofArray [1, 2, 3] rfl) add_one_functor).str.getD 1 0 =
      add_one_functor [1, 2, 3] 3 1 :=
  transform_spec (ctstr.ofArray [1, 2, 3] rfl) add_one_functor 1 (by decide)

/-- C4: for every fixed string of length `L = size()` and every runtime
index `i`, `operator[]` returns the character stored at position `i`
when `i < L`, and signals `std::out_of_range` exactly when `i ≥ L`. -/
theorem ctstr_index_spec {N : Nat} (s : ctstr N) (i : Nat) :
    (i < s.size → s.index i = Except.ok (s.str.getD i 0)) ∧
    (s.size ≤ i → s.index i = Except.error ("index out of range")) := by
  constructor
  · intro h
    have h0 : i < s.len := h
    rw [ctstr.index, dif_pos h0]
    have hl : i < s.str.length := by
      have h1 := s.hstr
      have h2 := s.hlen
      have h3 : i < s.len := h
      omega
    rw [getD_eq_get s.str i hl]
  · intro h
    rw [ctstr.index, dif_neg (by
      have h3 : s.len ≤ i := h
      omega)]

theorem ctstr_index_spec_witness :
    (ctstr.ofArray [72, 69, 76, 76, 79] rfl).index 2 = Except.ok 76 ∧
    (ctstr.ofArray [72, 69, 76, 76, 79] rfl).index 5 = Except.error ("index out of range") :=
  ⟨((ctstr_index_spec (ctstr.ofArray [72, 69, 76, 76, 79] rfl) 2).1 (by decide)).trans rfl,
   (ctstr_index_spec (ctstr.ofArray [72, 69, 76, 76, 79] rfl) 5).2 (by decide)⟩

/-- C5: comparing a fixed string of length `N` with another fixed
string or raw literal of length `Y` yields `true` exactly when `Y = N`
and every element in `[0, N)` matches; in particular it is `false`
whenever `Y ≠ N`, equality of identical literals holds and distinct
literals of any lengths compare unequal. -/
theorem ctstr_eq_spec {N Y : Nat} (s : ctstr N) (t : ctstr Y) (a : List Nat)
    (ha : a.length = Y) :
    (ctstr.beq s t = true ↔ (Y = N ∧ ∀ i, i < N → s.str.getD i 0 = t.str.getD i 0)) ∧
    (ctstr.beqArr s Y a = true ↔ (Y = N ∧ ∀ i, i < N → s.str.getD i 0 = a.getD i 0)) := by
  by_cases h : Y = N
  · subst h
    simp [ctstr.beq, ctstr.beqArr, equalLoop_iff]
  · simp [ctstr.beq, ctstr.beqArr, h]

theorem ctstr_eq_spec_witness :
    ctstr.beq (ctstr.ofArray [72, 69, 76, 76, 79] rfl)
      (ctstr.ofArray [72, 69, 76, 76, 79] rfl) = true ∧
    ctstr.beq (ctstr.ofArray [72, 69] rfl) (ctstr.ofArray [72, 69, 76] rfl) = false :=
  ⟨(ctstr_eq_spec (ctstr.ofArray [72, 69, 76, 76, 79] rfl)
      (ctstr.ofArray [72, 69, 76, 76, 79] rfl) [72, 69, 76, 76, 79] rfl).1.mpr
      ⟨rfl, by decide⟩,
   by decide⟩

/-- C9 (implicit): inequality is exactly the negation of equality, for
both the `ctstr` and the raw-literal overloads, and equality is
reflexive. -/
theorem ctstr_ne_compl_spec {N Y : Nat} (s : ctstr N) (t : ctstr Y) (a : List Nat)
    (ha : a.length = Y) :
    ctstr.bne s t = !(ctstr.beq s t) ∧
    ctstr.bneArr s Y a = !(ctstr.beqArr s Y a) ∧
    ctstr.beq s s = true := by
  refine ⟨?_, ?_, ?_⟩
  · by_cases h : Y = N <;> simp [ctstr.bne, ctstr.beq, h]
  · by_cases h : Y = N <;> simp [ctstr.bneArr, ctstr.beqArr, h]
  · simp [ctstr.beq, equalLoop_iff]

theorem ctstr_ne_compl_spec_witness :
    ctstr.bne (ctstr.ofArray [1, 2] rfl) (ctstr.ofArray [1, 3] rfl) =
      !(ctstr.beq (ctstr.ofArray [1, 2] rfl) (ctstr.ofArray [1, 3] rfl)) ∧
    ctstr.beq (ctstr.ofArray [1, 2] rfl) (ctstr.ofArray [1, 2] rfl) = true :=
  ⟨(ctstr_ne_compl_spec (ctstr.ofArray [1, 2] rfl) (ctstr.ofArray [1, 3] rfl)
      [1, 3] rfl).1,
   (ctstr_ne_compl_spec (ctstr.ofArray [1, 2] rfl) (ctstr.ofArray [1, 2] rfl)
      [1, 2] rfl).2.2⟩

/-- C7: the `transform` overload taking a fixed string and the overload
taking the raw literal array produce identical results, and the two
`crypt` overloads produce obfuscated values with identical stored
contents (and the same stored functor). -/
theorem transform_crypt_overload_equiv {N : Nat} (a : List Nat) (ha : a.length = N)
    (f : List Nat → Nat → Nat → Nat) :
    transform (ctstr.ofArray a ha) f = transformArr a f ∧
    crypt f (ctstr.ofArray a ha) = cryptArr f a :=
  ⟨rfl, rfl⟩

theorem transform_crypt_overload_equiv_witness :
    transform (ctstr.ofArray [10, 20] rfl) add_one_functor =
      (transformArr [10, 20] add_one_functor : ctstr 2) ∧
    crypt add_one_functor (ctstr.ofArray [10, 20] rfl) =
      (cryptArr add_one_functor [10, 20] : cryptstr 2) :=
  transform_crypt_overload_equiv [10, 20] rfl add_one_functor

/-- C8: for a memory region, an offset `p` and a count `n` with
`p + n` inside the region, `memzero` sets each of the `n` bytes
starting at `p` to zero, leaves every byte outside `[p, p + n)`
unchanged, and preserves the region's size. -/
theorem memzero_spec (mem : List Nat) (p n : Nat) (h : p + n ≤ mem.length) (i : Nat) :
    (memzero mem p n).length = mem.length ∧
    (p ≤ i → i < p + n → (memzero mem p n).getD i 0 = 0) ∧
    ((i < p ∨ p + n ≤ i) → (memzero mem p n).getD i 0 = mem.getD i 0) := by
  refine ⟨memzero_length n mem p,
    fun h1 h2 => memzero_getD_zero n mem p i h1 h2, fun h3 => ?_⟩
  rcases h3 with h3 | h3
  · exact memzero_getD_lt n mem p i h3
  · exact memzero_getD_ge n mem p i h3

theorem memzero_spec_witness :
    (memzero [5, 6, 7, 8] 1 2).getD 2 0 = 0 ∧
    (memzero [5, 6, 7, 8] 1 2).getD 3 0 = [5, 6, 7, 8].getD 3 0 :=
  ⟨(memzero_spec [5, 6, 7, 8] 1 2 (by decide) 2).2.1 (by decide) (by decide),
   (memzero_spec [5, 6, 7, 8] 1 2 (by decide) 3).2.2 (Or.inr (by decide))⟩

/-- C2: when a `strview` is destroyed, every byte of its owned backing
buffer (`size() * sizeof(CharType)` bytes at `c_str()`) is set to
zero, so reading the former backing memory afterwards observes all
zero bytes; the buffer keeps its extent. -/
theorem strview_erasure (v : strview) (i : Nat) (hi : i < v.size) :
    (strview.destructor v).length = v.size ∧ (strview.destructor v).getD i 0 = 0 := by
  refine ⟨memzero_length _ _ _, ?_⟩
  exact memzero_getD_zero _ _ _ _ (Nat.zero_le i) (by
    have h1 : v.size * 1 = v.size := Nat.mul_one _
    omega)

theorem strview_erasure_witness :
    (strview.destructor (strview.ofCtstr (ctstr.ofArray [9, 9] rfl))).getD 0 0 = 0 :=
  (strview_erasure (strview.ofCtstr (ctstr.ofArray [9, 9] rfl)) 0 (by decide)).2

/-- C10 (implicit): a `strview` constructed from a fixed string of
length `N` has size exactly `N` and element `i` equal to the fixed
string's element `i` for every `i < N`; for literal-built strings the
trailing null terminator is part of the copied content and counted in
the size. -/
theorem strview_copy_spec {N : Nat} (s : ctstr N) (i : Nat) (hi : i < N) :
    (strview.ofCtstr s).size = N ∧
    (strview.ofCtstr s).buf.getD i 0 = s.str.getD i 0 := by
  constructor
  · show (strview.ofCtstr s).buf.length = N
    rw [strview_ofCtstr_buf, s.hstr]
  · rw [strview_ofCtstr_buf]

theorem strview_copy_spec_witness :
    (strview.ofCtstr (ctstr.ofArray [72, 73, 0] rfl)).size = 3 ∧
    (strview.ofCtstr (ctstr.ofArray [72, 73, 0] rfl)).buf.getD 2 0 = 0 :=
  ⟨(strview_copy_spec (ctstr.ofArray [72, 73, 0] rfl) 2 (by decide)).1,
   ((strview_copy_spec (ctstr.ofArray [72, 73, 0] rfl) 2 (by decide)).2).trans rfl⟩

/-- C1 (counterexample to the claim as stated): `decrypt` re-applies
the SAME functor, so a valid (deterministic, total, per-character
invertible) transform object that is not self-inverse does not
round-trip: with the add-one functor, encoding the plaintext `[65]`
and decoding yields 67 at index 0, not 65. -/
theorem crypt_decrypt_not_universal :
    ¬ (((crypt add_one_functor (ctstr.ofArray [65] rfl)).decrypt).buf.getD 0 0 =
        (ctstr.ofArray [65] rfl).str.getD 0 0) := by
  decide

/-- C1 (amended): the round-trip holds exactly for transform objects
whose re-application inverts the first application (self-inverse in
the engine's sense, e.g. `xor_functor`): if re-applying `F` to the
transformed string restores every character, then
`crypt(F, P).decrypt()` yields content equal to `P` at every index in
`[0, N)`. -/
theorem crypt_decrypt_roundtrip {N : Nat} (P : ctstr N)
    (f : List Nat → Nat → Nat → Nat)
    (hinv : ∀ i, i < N → f (transform P f).str N i = P.str.getD i 0)
    (i : Nat) (hi : i < N) :
    ((crypt f P).decrypt).buf.getD i 0 = P.str.getD i 0 := by
  show (strview.ofCtstr (transform (crypt f P).data (crypt f P).functor)).buf.getD i 0 = _
  rw [strview_ofCtstr_buf, transform_getD ((crypt f P).data) ((crypt f P).functor) hi]
  exact hinv i hi

theorem crypt_decrypt_roundtrip_witness :
    ((crypt (xor_functor 4919) (ctstr.ofArray [70, 73, 82, 0] rfl)).decrypt).buf.getD 2 0 =
      (ctstr.ofArray [70, 73, 82, 0] rfl).str.getD 2 0 :=
  crypt_decrypt_roundtrip (ctstr.ofArray [70, 73, 82, 0] rfl) (xor_functor 4919)
    (by decide) 2 (by decide)

/-- C6: for every plaintext `P` of byte characters encoded with
`xor_functor<Key>` where `Key % 256 ≠ 0`, the fixed string stored
inside the resulting obfuscated value differs from `P` at every index
in `[0, N)`. -/
theorem no_plaintext_at_rest {N : Nat} (P : ctstr N) (Key : Nat)
    (hK : Key % 256 ≠ 0) (hbytes : ∀ i, i < N → P.str.getD i 0 < 256)
    (i : Nat) (hi : i < N) :
    ((crypt (xor_functor Key) P).data).str.getD i 0 ≠ P.str.getD i 0 := by
  show (transform P (xor_functor Key)).str.getD i 0 ≠ _
  rw [transform_getD P (xor_functor Key) hi]
  exact xor_byte_ne (P.str.getD i 0) Key (hbytes i hi) hK

theorem no_plaintext_at_rest_witness :
    ((crypt (xor_functor 4919) demo_plain).data).str.getD 0 0 ≠ demo_plain.str.getD 0 0 :=
  no_plaintext_at_rest demo_plain 4919 (by decide) (by decide) 0 (by decide)

end cs
